import Mathlib

/-
Verification of the field-level encryption subsystem of the PGI_EMRS
repository (src/Backend/utils/encryption.js and
src/Frontend/src/utils/encryptionDetection.js).

The JavaScript code is shallowly embedded: JS runtime values become the
inductive type JSValue; the randomness drawn by crypto.randomBytes becomes
explicit salt/iv parameters of encrypt; the Node crypto primitives
(pbkdf2Sync, AES-256-GCM via createCipheriv/createDecipheriv, UTF-8
Buffer conversion) are external library calls and are therefore abstracted
as the fields of a CryptoModel, with their contracts stated as explicit
hypotheses (CryptoAssumptions, GcmAuthentic); a step that can throw is
modelled as returning Option, and the try/catch blocks of encrypt/decrypt
become the surrounding match that falls back to the original value.
Base64 (Buffer.from / toString with the base64 codec) is implemented
concretely since the envelope length structure depends on it.
-/

namespace EMRS

/-- Model of JavaScript runtime values as they flow through the codec:
null, undefined, booleans, numbers (restricted to integers; no claim
needs non-integral doubles), strings, plain objects (association lists)
and arrays. -/
inductive JSValue where
  | null : JSValue
  | undefined : JSValue
  | bool : Bool → JSValue
  | num : Int → JSValue
  | str : String → JSValue
  | obj : List (String × JSValue) → JSValue
  | arr : List JSValue → JSValue

/-- JavaScript truthiness: the guard `!text` in encrypt/decrypt is false
exactly on null, undefined, false, 0 and the empty string (NaN does not
arise in the integer model). -/
def falsy : JSValue → Bool
  | JSValue.null => true
  | JSValue.undefined => true
  | JSValue.bool b => !b
  | JSValue.num n => n == 0
  | JSValue.str s => s == ""
  | JSValue.obj _ => false
  | JSValue.arr _ => false

mutual

/-- JavaScript String(x) coercion, as used by `const textToEncrypt =
String(text)` in encrypt. Arrays stringify as comma-joined elements with
null/undefined elements becoming empty, objects as "[object Object]". -/
def jsToString : JSValue → String
  | JSValue.null => "null"
  | JSValue.undefined => "undefined"
  | JSValue.bool true => "true"
  | JSValue.bool false => "false"
  | JSValue.num n => toString n
  | JSValue.str s => s
  | JSValue.obj _ => "[object Object]"
  | JSValue.arr l => String.intercalate "," (jsArrElemStrings l)

/-- Element stringification for JS Array.prototype.join: null and
undefined elements join as the empty string. -/
def jsArrElemStrings : List JSValue → List String
  | [] => []
  | JSValue.null :: rest => "" :: jsArrElemStrings rest
  | JSValue.undefined :: rest => "" :: jsArrElemStrings rest
  | v :: rest => jsToString v :: jsArrElemStrings rest

end

/-! ### Base64 (the Buffer base64 codec used for the envelope text) -/

/-- The base64 alphabet in index order. -/
def b64chars : String :=
  "ABCDEFGHIJKLMNOPQRSTUVWXYZabcdefghijklmnopqrstuvwxyz0123456789+/"

/-- Character for a sextet value (0..63). -/
def b64char (n : Nat) : Char := b64chars.data.getD n 'A'

/-- Sextet value of an alphabet character; characters outside the base64
alphabet contribute 0 (the Node base64 decoder is likewise lenient with
malformed input — the claims only ever decode valid base64). -/
def b64sextet (c : Char) : Nat :=
  if 'A' ≤ c ∧ c ≤ 'Z' then c.toNat - 65
  else if 'a' ≤ c ∧ c ≤ 'z' then c.toNat - 97 + 26
  else if '0' ≤ c ∧ c ≤ '9' then c.toNat - 48 + 52
  else if c = '+' then 62
  else if c = '/' then 63
  else 0

/-- Base64-encode a byte list (standard RFC 4648 encoding with '='
padding, as produced by Buffer.prototype.toString with base64). -/
def b64encodeBytes : List Nat → List Char
  | [] => []
  | [b0] =>
      [b64char (b0 / 4), b64char (b0 % 4 * 16), '=', '=']
  | [b0, b1] =>
      [b64char (b0 / 4), b64char (b0 % 4 * 16 + b1 / 16),
       b64char (b1 % 16 * 4), '=']
  | b0 :: b1 :: b2 :: rest =>
      b64char (b0 / 4) :: b64char (b0 % 4 * 16 + b1 / 16) ::
      b64char (b1 % 16 * 4 + b2 / 64) :: b64char (b2 % 64) ::
      b64encodeBytes rest

/-- Base64-decode a character list (well-formed inputs; the codec paths
exercised by the claims only ever decode either encoder output or valid
base64 text, and any garbage result flows into decrypt's catch path where
it is discarded). -/
def b64decodeChars : List Char → List Nat
  | c0 :: c1 :: c2 :: c3 :: rest =>
      if c2 = '=' then [b64sextet c0 * 4 + b64sextet c1 / 16]
      else if c3 = '=' then
        [b64sextet c0 * 4 + b64sextet c1 / 16,
         b64sextet c1 % 16 * 16 + b64sextet c2 / 4]
      else
        (b64sextet c0 * 4 + b64sextet c1 / 16) ::
        (b64sextet c1 % 16 * 16 + b64sextet c2 / 4) ::
        (b64sextet c2 % 4 * 64 + b64sextet c3) :: b64decodeChars rest
  | _ => []

theorem b64sextet_b64char : ∀ n, n < 64 → b64sextet (b64char n) = n := by decide

theorem b64char_ne_pad : ∀ n, n < 64 → ¬ b64char n = '=' := by decide

/-- Decoding inverts encoding on genuine byte lists. -/
theorem b64_roundtrip : ∀ bs : List Nat, (∀ b ∈ bs, b < 256) →
    b64decodeChars (b64encodeBytes bs) = bs
  | [], _ => rfl
  | [b0], h => by
      have hb0 : b0 < 256 := h b0 (by simp)
      have e0 := b64sextet_b64char (b0 / 4) (by omega)
      have e1 := b64sextet_b64char (b0 % 4 * 16) (by omega)
      simp [b64encodeBytes, b64decodeChars, e0, e1]
      omega
  | [b0, b1], h => by
      have hb0 : b0 < 256 := h b0 (by simp)
      have hb1 : b1 < 256 := h b1 (by simp)
      have e0 := b64sextet_b64char (b0 / 4) (by omega)
      have e1 := b64sextet_b64char (b0 % 4 * 16 + b1 / 16) (by omega)
      have e2 := b64sextet_b64char (b1 % 16 * 4) (by omega)
      have n2 := b64char_ne_pad (b1 % 16 * 4) (by omega)
      simp [b64encodeBytes, b64decodeChars, e0, e1, e2, n2]
      omega
  | b0 :: b1 :: b2 :: rest, h => by
      have hb0 : b0 < 256 := h b0 (by simp)
      have hb1 : b1 < 256 := h b1 (by simp)
      have hb2 : b2 < 256 := h b2 (by simp)
      have ih := b64_roundtrip rest (fun b hb => h b (by simp [hb]))
      have e0 := b64sextet_b64char (b0 / 4) (by omega)
      have e1 := b64sextet_b64char (b0 % 4 * 16 + b1 / 16) (by omega)
      have e2 := b64sextet_b64char (b1 % 16 * 4 + b2 / 64) (by omega)
      have e3 := b64sextet_b64char (b2 % 64) (by omega)
      have n2 := b64char_ne_pad (b1 % 16 * 4 + b2 / 64) (by omega)
      have n3 := b64char_ne_pad (b2 % 64) (by omega)
      simp [b64encodeBytes, b64decodeChars, e0, e1, e2, e3, n2, n3, ih]
      omega

/-- Length of the base64 encoding: four characters per started block of
three bytes. -/
theorem b64encode_length : ∀ bs : List Nat,
    (b64encodeBytes bs).length = 4 * ((bs.length + 2) / 3)
  | [] => rfl
  | [_] => by simp [b64encodeBytes]
  | [_, _] => by simp [b64encodeBytes]
  | _ :: _ :: _ :: rest => by
      simp only [b64encodeBytes, List.length_cons, b64encode_length rest]
      omega

/-! ### Constants of src/Backend/utils/encryption.js -/

def SALT_LENGTH : Nat := 64

def IV_LENGTH : Nat := 16

def TAG_LENGTH : Nat := 16

def TAG_POSITION : Nat := SALT_LENGTH + IV_LENGTH

def ENCRYPTED_POSITION : Nat := TAG_POSITION + TAG_LENGTH

/-! ### The external Node crypto primitives

pbkdf2Sync, AES-256-GCM (createCipheriv / createDecipheriv) and UTF-8
Buffer conversion live in the Node standard library, not in this
repository, so they are abstracted as an arbitrary CryptoModel; bytes are
Nat values (< 256 where it matters, stated explicitly). A primitive that
can throw is modelled as returning none. -/

structure CryptoModel where
  /-- crypto.pbkdf2Sync(password, salt, 100000, 32, sha512). -/
  pbkdf2 : String → List Nat → Option (List Nat)
  /-- AES-256-GCM encryption: key, iv, plaintext bytes to
  (ciphertext bytes, auth tag). -/
  gcmEncrypt : List Nat → List Nat → List Nat → Option (List Nat × List Nat)
  /-- AES-256-GCM decryption with tag verification: key, iv, tag,
  ciphertext bytes to plaintext bytes; none when the tag check or any
  other step throws. -/
  gcmDecrypt : List Nat → List Nat → List Nat → List Nat → Option (List Nat)
  /-- Buffer.from(s, utf8): UTF-8 bytes of a string. -/
  utf8Encode : String → List Nat
  /-- Bytes back to a string with the utf8 codec. -/
  utf8Decode : List Nat → Option String

/-- getKeyFromPassword(password, salt) from encryption.js: derives the
32-byte key via PBKDF2. -/
def getKeyFromPassword (M : CryptoModel) (password : String)
    (salt : List Nat) : Option (List Nat) :=
  M.pbkdf2 password salt

/-! ### Field codec: encrypt / decrypt -/

/-- Body of the try block of encrypt (encryption.js lines 35-65): coerce
to string, derive the key from the fresh salt, run AES-256-GCM with the
fresh iv, and base64-encode salt, iv, tag and ciphertext concatenated.
The randomness of crypto.randomBytes is passed in as the salt and iv
arguments. A none result stands for the try block throwing. -/
def encryptBody (M : CryptoModel) (secret : String) (salt iv : List Nat)
    (text : JSValue) : Option String :=
  match getKeyFromPassword M secret salt with
  | none => none
  | some key =>
    match M.gcmEncrypt key iv (M.utf8Encode (jsToString text)) with
    | none => none
    | some (encrypted, tag) =>
      some (String.mk (b64encodeBytes (salt ++ iv ++ tag ++ encrypted)))

/-- encrypt (encryption.js lines 30-71): falsy input is returned
unchanged; otherwise the try block runs and on failure the catch returns
the original text. -/
def encrypt (M : CryptoModel) (secret : String) (salt iv : List Nat)
    (text : JSValue) : JSValue :=
  if falsy text then text
  else
    match encryptBody M secret salt iv text with
    | some envelope => JSValue.str envelope
    | none => text

/-- Body of the try block of decrypt after the legacy guard
(encryption.js lines 91-111): base64-decode, slice salt / iv / tag /
ciphertext at the fixed offsets, derive the key, decrypt with tag
verification, decode the plaintext bytes as UTF-8. A none result stands
for this part throwing. -/
def decryptBody (M : CryptoModel) (secret : String) (s : String) :
    Option String :=
  let combined := b64decodeChars s.data
  let salt := combined.take SALT_LENGTH
  let iv := (combined.drop SALT_LENGTH).take (TAG_POSITION - SALT_LENGTH)
  let tag := (combined.drop TAG_POSITION).take (ENCRYPTED_POSITION - TAG_POSITION)
  let encrypted := combined.drop ENCRYPTED_POSITION
  match getKeyFromPassword M secret salt with
  | none => none
  | some key =>
    match M.gcmDecrypt key iv tag encrypted with
    | none => none
    | some decrypted => M.utf8Decode decrypted

/-- decrypt (encryption.js lines 78-117): falsy input unchanged; inside
the try, a non-string or a string shorter than ENCRYPTED_POSITION (96)
characters is returned as-is (legacy plaintext guard); otherwise the
body runs and on any failure the catch returns the stored value. -/
def decrypt (M : CryptoModel) (secret : String) (encryptedText : JSValue) :
    JSValue :=
  if falsy encryptedText then encryptedText
  else
    match encryptedText with
    | JSValue.str s =>
      if s.length < ENCRYPTED_POSITION then encryptedText
      else
        match decryptBody M secret s with
        | some decrypted => JSValue.str decrypted
        | none => encryptedText
    | _ => encryptedText

/-- True exactly when control in decrypt's source reaches the decipher
construction, i.e. when the input passes the falsy check and the
legacy-plaintext guard and a decryption is actually attempted. -/
def decryptAttempted (encryptedText : JSValue) : Bool :=
  match encryptedText with
  | JSValue.str s => !falsy (JSValue.str s) && decide (ENCRYPTED_POSITION ≤ s.length)
  | _ => false

/-! ### Object / array codec -/

/-- Property access obj[field] on the association-list object model:
undefined for an absent key, JS objects have unique keys so the first
match is the value. -/
def getField : List (String × JSValue) → String → JSValue
  | [], _ => JSValue.undefined
  | (k, v) :: rest, f => if k = f then v else getField rest f

/-- Property assignment obj[field] = v: replaces the existing entry in
place, or appends a new one. -/
def setField : List (String × JSValue) → String → JSValue → List (String × JSValue)
  | [], f, v => [(f, v)]
  | (k, w) :: rest, f, v =>
      if k = f then (k, v) :: rest else (k, w) :: setField rest f v

/-- The guard `obj[field] !== undefined && obj[field] !== null &&
obj[field] !== ''` used by encryptObject/decryptObject (strict
comparison: only the empty string is === ''). -/
def eligibleField : JSValue → Bool
  | JSValue.undefined => false
  | JSValue.null => false
  | JSValue.str s => !(s == "")
  | _ => true

/-- The fieldsToEncrypt.forEach loop shared by encryptObject and
decryptObject: walk the field names in order over the shallow copy,
replacing each eligible present field by g applied to its value. -/
def codeFields (g : JSValue → JSValue) (fields : List String)
    (l : List (String × JSValue)) : List (String × JSValue) :=
  fields.foldl
    (fun acc f =>
      if eligibleField (getField acc f) then setField acc f (g (getField acc f))
      else acc) l

/-- The object spread of a JS array: typeof of an array is object, so
the source's guard lets arrays through and the spread copies the own
enumerable properties, i.e. the index-keyed elements ("0", "1", ...);
the length property is non-enumerable and is not copied. -/
def arraySpread (l : List JSValue) : List (String × JSValue) :=
  l.enum.map (fun p => (toString p.1, p.2))

/-- encryptObject (encryption.js lines 125-139). The guard
`!obj || typeof obj !== 'object'` returns null (falsy) and every
primitive unchanged; a plain object is shallow-copied and processed; an
array also has typeof object, so it is spread into an index-keyed plain
object and processed the same way. -/
def encryptObject (M : CryptoModel) (secret : String) (salt iv : List Nat)
    (o : JSValue) (fieldsToEncrypt : List String) : JSValue :=
  match o with
  | JSValue.obj l =>
      JSValue.obj (codeFields (encrypt M secret salt iv) fieldsToEncrypt l)
  | JSValue.arr l =>
      JSValue.obj (codeFields (encrypt M secret salt iv) fieldsToEncrypt (arraySpread l))
  | _ => o

/-- decryptObject (encryption.js lines 147-161): same guard and spread
as encryptObject, with decrypt applied to the eligible named fields. -/
def decryptObject (M : CryptoModel) (secret : String)
    (o : JSValue) (fieldsToDecrypt : List String) : JSValue :=
  match o with
  | JSValue.obj l =>
      JSValue.obj (codeFields (decrypt M secret) fieldsToDecrypt l)
  | JSValue.arr l =>
      JSValue.obj (codeFields (decrypt M secret) fieldsToDecrypt (arraySpread l))
  | _ => o

/-- encryptArray (encryption.js lines 169-175): maps encryptObject over
an array, returns non-array input unchanged. -/
def encryptArray (M : CryptoModel) (secret : String) (salt iv : List Nat)
    (a : JSValue) (fieldsToEncrypt : List String) : JSValue :=
  match a with
  | JSValue.arr l =>
      JSValue.arr (l.map (fun item => encryptObject M secret salt iv item fieldsToEncrypt))
  | _ => a

/-- decryptArray (encryption.js lines 183-189). -/
def decryptArray (M : CryptoModel) (secret : String)
    (a : JSValue) (fieldsToDecrypt : List String) : JSValue :=
  match a with
  | JSValue.arr l =>
      JSValue.arr (l.map (fun item => decryptObject M secret item fieldsToDecrypt))
  | _ => a

/-! ### Frontend corruption detector
(src/Frontend/src/utils/encryptionDetection.js) -/

def MIN_ENCRYPTED_LENGTH : Nat := 128

/-- Membership in the regex character class [A-Za-z0-9+/=]. -/
def isBase64Char (c : Char) : Bool :=
  ('A' ≤ c && c ≤ 'Z') || ('a' ≤ c && c ≤ 'z') || ('0' ≤ c && c ≤ '9') ||
  c == '+' || c == '/' || c == '='

/-- isEncrypted (encryptionDetection.js lines 16-41): falsy or non-string
values are false; then the checks in source order: minimum length 128,
the base64 regex over the whole string, and no space / newline / tab. -/
def isEncrypted (value : JSValue) : Bool :=
  match value with
  | JSValue.str s =>
      if falsy (JSValue.str s) then false
      else if s.length < MIN_ENCRYPTED_LENGTH then false
      else if !(s.data.all isBase64Char) then false
      else if s.data.contains ' ' || s.data.contains '\n' || s.data.contains '\t' then false
      else true
  | _ => false

/-! ### Contracts assumed of the external crypto primitives -/

/-- The behaviour of the Node primitives that the encryption subsystem
relies on: PBKDF2 and GCM encryption succeed on the argument shapes the
codec produces, GCM is length-preserving with a 16-byte tag and all
output is bytes, decryption inverts encryption under the same key and
iv, and UTF-8 decoding inverts encoding. -/
structure CryptoAssumptions (M : CryptoModel) : Prop where
  pbkdf2_some : ∀ pw salt, ∃ k, M.pbkdf2 pw salt = some k
  enc_some : ∀ k iv p, ∃ ct tag, M.gcmEncrypt k iv p = some (ct, tag)
  enc_ct_len : ∀ k iv p ct tag,
    M.gcmEncrypt k iv p = some (ct, tag) → ct.length = p.length
  enc_tag_len : ∀ k iv p ct tag,
    M.gcmEncrypt k iv p = some (ct, tag) → tag.length = 16
  enc_ct_bytes : ∀ k iv p ct tag,
    M.gcmEncrypt k iv p = some (ct, tag) → (∀ b ∈ p, b < 256) →
    ∀ b ∈ ct, b < 256
  enc_tag_bytes : ∀ k iv p ct tag,
    M.gcmEncrypt k iv p = some (ct, tag) → ∀ b ∈ tag, b < 256
  dec_enc : ∀ k iv p ct tag,
    M.gcmEncrypt k iv p = some (ct, tag) → M.gcmDecrypt k iv tag ct = some p
  utf8_rt : ∀ s, M.utf8Decode (M.utf8Encode s) = some s
  utf8_bytes : ∀ s, ∀ b ∈ M.utf8Encode s, b < 256
  utf8_len : ∀ s : String, s.length ≤ (M.utf8Encode s).length

/-- AEAD authenticity: decrypting with any tag other than the one
produced for this key, iv and ciphertext fails the verification in
decipher.final and throws (none). -/
def GcmAuthentic (M : CryptoModel) : Prop :=
  ∀ k iv p ct tag t2, M.gcmEncrypt k iv p = some (ct, tag) → t2 ≠ tag →
    M.gcmDecrypt k iv t2 ct = none

/-! ### A concrete model of the primitives

The theorems below are stated for an arbitrary CryptoModel satisfying
CryptoAssumptions / GcmAuthentic; this executable instance shows the
hypotheses are satisfiable and lets every witness evaluate on concrete
input. It is not AES (the real cipher is outside the repository); it
satisfies exactly the stated contracts. -/

/-- Injective 3-bytes-per-character text encoding for the concrete
model. -/
def toyTextEnc : List Char → List Nat
  | [] => []
  | c :: rest =>
      c.toNat / 65536 :: c.toNat / 256 % 256 :: c.toNat % 256 :: toyTextEnc rest

/-- Inverse of toyTextEnc. -/
def toyTextDec : List Nat → Option (List Char)
  | [] => some []
  | b0 :: b1 :: b2 :: rest =>
      (toyTextDec rest).map (fun cs => Char.ofNat (b0 * 65536 + b1 * 256 + b2) :: cs)
  | _ => none

/-- Auth tag of the concrete model: 15 zero bytes and a checksum byte
over key, iv and ciphertext. -/
def toyTag (k iv ct : List Nat) : List Nat :=
  List.replicate 15 0 ++ [(k.sum + iv.sum + ct.sum) % 256]

/-- The concrete CryptoModel: identity cipher with a checksum tag. -/
def toyModel : CryptoModel where
  pbkdf2 := fun _ _ => some [42]
  gcmEncrypt := fun k iv p => some (p, toyTag k iv p)
  gcmDecrypt := fun k iv tag ct => if tag = toyTag k iv ct then some ct else none
  utf8Encode := fun s => toyTextEnc s.data
  utf8Decode := fun bs => (toyTextDec bs).map String.mk

theorem char_toNat_lt (c : Char) : c.toNat < 1114112 := by
  have h := c.valid
  rcases h with h | ⟨h1, h2⟩
  · exact lt_trans h (by norm_num)
  · exact h2

theorem toyTextDec_toyTextEnc : ∀ l : List Char,
    toyTextDec (toyTextEnc l) = some l
  | [] => rfl
  | c :: rest => by
      have h := char_toNat_lt c
      simp only [toyTextEnc, toyTextDec, toyTextDec_toyTextEnc rest,
        Option.map_some']
      congr 2
      have : c.toNat / 65536 * 65536 + c.toNat / 256 % 256 * 256 + c.toNat % 256
          = c.toNat := by omega
      rw [this, Char.ofNat_toNat]

theorem toyTextEnc_bytes : ∀ l : List Char, ∀ b ∈ toyTextEnc l, b < 256
  | c :: rest => by
      have h := char_toNat_lt c
      intro b hb
      simp only [toyTextEnc, List.mem_cons] at hb
      rcases hb with h1 | h1 | h1 | h1
      · omega
      · omega
      · omega
      · exact toyTextEnc_bytes rest b h1
  | [] => by intro b hb; simp [toyTextEnc] at hb

theorem toyTextEnc_length : ∀ l : List Char,
    (toyTextEnc l).length = 3 * l.length
  | [] => rfl
  | _ :: rest => by
      simp only [toyTextEnc, List.length_cons, toyTextEnc_length rest]
      omega

/-- The concrete model satisfies every assumed contract. -/
theorem toyModel_assumptions : CryptoAssumptions toyModel where
  pbkdf2_some := fun _ _ => ⟨[42], rfl⟩
  enc_some := fun k iv p => ⟨p, toyTag k iv p, rfl⟩
  enc_ct_len := by
    intro k iv p ct tag h
    simp only [toyModel, Option.some.injEq, Prod.mk.injEq] at h
    rw [← h.1]
  enc_tag_len := by
    intro k iv p ct tag h
    simp only [toyModel, Option.some.injEq, Prod.mk.injEq] at h
    rw [← h.2]
    simp [toyTag]
  enc_ct_bytes := by
    intro k iv p ct tag h hp
    simp only [toyModel, Option.some.injEq, Prod.mk.injEq] at h
    rw [← h.1]
    exact hp
  enc_tag_bytes := by
    intro k iv p ct tag h b hb
    simp only [toyModel, Option.some.injEq, Prod.mk.injEq] at h
    rw [← h.2] at hb
    simp only [toyTag, List.mem_append, List.mem_replicate,
      List.mem_singleton] at hb
    rcases hb with ⟨_, h1⟩ | h1
    · omega
    · omega
  dec_enc := by
    intro k iv p ct tag h
    simp only [toyModel, Option.some.injEq, Prod.mk.injEq] at h
    simp [toyModel, ← h.1, ← h.2]
  utf8_rt := by
    intro s
    simp only [toyModel, toyTextDec_toyTextEnc, Option.map_some']
  utf8_bytes := fun s => toyTextEnc_bytes s.data
  utf8_len := by
    intro s
    show s.length ≤ (toyTextEnc s.data).length
    rw [toyTextEnc_length]
    have : s.length = s.data.length := rfl
    omega

/-- The concrete model is authentic: a wrong tag fails verification. -/
theorem toyModel_authentic : GcmAuthentic toyModel := by
  intro k iv p ct tag t2 h ht
  simp only [toyModel, Option.some.injEq, Prod.mk.injEq] at h
  simp only [toyModel, ← h.1]
  rw [if_neg]
  rw [← h.2] at ht
  rw [h.1] at ht ⊢
  exact ht

/-! ### Core lemmas about the field codec -/

theorem String_mk_length (l : List Char) : (String.mk l).length = l.length := rfl

theorem beq_empty_eq_false_of_length {s : String} (h : 0 < s.length) :
    (s == "") = false := by
  rw [beq_eq_false_iff_ne]
  intro he
  subst he
  simp at h

/-- On truthy input with working primitives, encrypt produces exactly the
base64 envelope of salt, iv, tag and ciphertext. -/
theorem encrypt_spec (M : CryptoModel) (secret : String) (salt iv : List Nat)
    (v : JSValue) (hA : CryptoAssumptions M) (hv : falsy v = false) :
    ∃ k ct tag,
      M.pbkdf2 secret salt = some k ∧
      M.gcmEncrypt k iv (M.utf8Encode (jsToString v)) = some (ct, tag) ∧
      encrypt M secret salt iv v =
        JSValue.str (String.mk (b64encodeBytes (salt ++ iv ++ tag ++ ct))) := by
  obtain ⟨k, hk⟩ := hA.pbkdf2_some secret salt
  obtain ⟨ct, tag, henc⟩ := hA.enc_some k iv (M.utf8Encode (jsToString v))
  refine ⟨k, ct, tag, hk, henc, ?_⟩
  simp [encrypt, encryptBody, getKeyFromPassword, hv, hk, henc]

/-- Length of the envelope text: four base64 characters per started
3-byte block of the 96 + ciphertext-length byte payload. -/
theorem envelope_length (salt iv tag ct : List Nat)
    (h64 : salt.length = 64) (h16 : iv.length = 16) (htag : tag.length = 16) :
    (String.mk (b64encodeBytes (salt ++ iv ++ tag ++ ct))).length
      = 4 * ((ct.length + 98) / 3) := by
  rw [String_mk_length, b64encode_length]
  simp [h64, h16, htag]
  congr 1
  omega

/-- decryptBody on a structurally well-formed envelope: the slices
recover exactly the salt, iv, tag and ciphertext that were concatenated,
so the body reduces to key derivation, GCM decryption and UTF-8
decoding. -/
theorem decryptBody_envelope (M : CryptoModel) (secret : String)
    (salt iv tag ct : List Nat) (k : List Nat) (s : String)
    (hs : s.data = b64encodeBytes (salt ++ iv ++ tag ++ ct))
    (h64 : salt.length = 64) (h16 : iv.length = 16) (htag : tag.length = 16)
    (hbs : ∀ b ∈ salt, b < 256) (hbi : ∀ b ∈ iv, b < 256)
    (hbt : ∀ b ∈ tag, b < 256) (hbc : ∀ b ∈ ct, b < 256)
    (hk : M.pbkdf2 secret salt = some k) :
    decryptBody M secret s = (M.gcmDecrypt k iv tag ct).bind M.utf8Decode := by
  have hbytes : ∀ b ∈ salt ++ iv ++ tag ++ ct, b < 256 := by
    intro b hb
    simp only [List.mem_append] at hb
    rcases hb with ((h | h) | h) | h
    · exact hbs b h
    · exact hbi b h
    · exact hbt b h
    · exact hbc b h
  have hcomb : b64decodeChars s.data = salt ++ iv ++ tag ++ ct := by
    rw [hs]; exact b64_roundtrip _ hbytes
  have e1 : salt ++ iv ++ tag ++ ct = (salt ++ iv) ++ (tag ++ ct) := by
    simp [List.append_assoc]
  have e2 : salt ++ iv ++ tag ++ ct = ((salt ++ iv) ++ tag) ++ ct := by
    simp [List.append_assoc]
  have t64 : (salt ++ iv ++ tag ++ ct).take 64 = salt := by
    have := @List.take_left' _ salt (iv ++ tag ++ ct) _ h64
    simpa [List.append_assoc] using this
  have d80 : (salt ++ iv ++ tag ++ ct).drop 80 = tag ++ ct := by
    rw [e1]
    exact List.drop_left' (by simp [h64, h16])
  have t80 : (tag ++ ct).take 16 = tag := List.take_left' htag
  have d96 : (salt ++ iv ++ tag ++ ct).drop 96 = ct := by
    rw [e2]
    exact List.drop_left' (by simp [h64, h16, htag])
  have d64 : (salt ++ iv ++ tag ++ ct).drop 64 = iv ++ tag ++ ct := by
    have := @List.drop_left' _ salt (iv ++ tag ++ ct) _ h64
    simpa [List.append_assoc] using this
  have t16 : (iv ++ tag ++ ct).take 16 = iv := by
    have := @List.take_left' _ iv (tag ++ ct) _ h16
    simpa [List.append_assoc] using this
  simp only [decryptBody, getKeyFromPassword, SALT_LENGTH, IV_LENGTH,
    TAG_LENGTH, TAG_POSITION, ENCRYPTED_POSITION]
  norm_num
  rw [hcomb, t64, d64, t16, d80, t80, d96, hk]
  cases hD : M.gcmDecrypt k iv tag ct <;> simp [hD]

/-- Round trip of the field codec on any truthy value: decrypt of
encrypt recovers the String(x) coercion of the input. -/
theorem decrypt_encrypt_truthy (M : CryptoModel) (secret : String)
    (salt iv : List Nat) (v : JSValue) (hA : CryptoAssumptions M)
    (h64 : salt.length = 64) (h16 : iv.length = 16)
    (hbs : ∀ b ∈ salt, b < 256) (hbi : ∀ b ∈ iv, b < 256)
    (hv : falsy v = false) :
    decrypt M secret (encrypt M secret salt iv v) = JSValue.str (jsToString v) := by
  obtain ⟨k, ct, tag, hk, henc, hrw⟩ := encrypt_spec M secret salt iv v hA hv
  have hctlen : ct.length = (M.utf8Encode (jsToString v)).length :=
    hA.enc_ct_len _ _ _ _ _ henc
  have htaglen : tag.length = 16 := hA.enc_tag_len _ _ _ _ _ henc
  set env := String.mk (b64encodeBytes (salt ++ iv ++ tag ++ ct)) with henv
  have hlen : env.length = 4 * ((ct.length + 98) / 3) :=
    envelope_length salt iv tag ct h64 h16 htaglen
  have hlen128 : 128 ≤ env.length := by rw [hlen]; omega
  have hbody : decryptBody M secret env
      = (M.gcmDecrypt k iv tag ct).bind M.utf8Decode :=
    decryptBody_envelope M secret salt iv tag ct k env rfl h64 h16 htaglen
      hbs hbi (hA.enc_tag_bytes _ _ _ _ _ henc)
      (hA.enc_ct_bytes _ _ _ _ _ henc (hA.utf8_bytes _)) hk
  rw [hrw]
  unfold decrypt
  rw [show falsy (JSValue.str env) = false from
    beq_empty_eq_false_of_length (by omega)]
  simp only [Bool.false_eq_true, if_false]
  rw [if_neg (by simp only [ENCRYPTED_POSITION, TAG_POSITION, SALT_LENGTH,
    IV_LENGTH, TAG_LENGTH]; omega)]
  rw [hbody, hA.dec_enc _ _ _ _ _ henc]
  simp [hA.utf8_rt]

/-! ### The claims -/

/-- C1: for every non-empty string s, with a fixed master secret,
decrypting the result of encrypting s returns s exactly:
decrypt (encrypt s) = s (the fresh 64-byte salt and 16-byte iv drawn by
crypto.randomBytes are the salt/iv parameters). -/
theorem c1_round_trip (M : CryptoModel) (secret : String) (salt iv : List Nat)
    (s : String) (hA : CryptoAssumptions M)
    (h64 : salt.length = 64) (h16 : iv.length = 16)
    (hbs : ∀ b ∈ salt, b < 256) (hbi : ∀ b ∈ iv, b < 256)
    (hs : s ≠ "") :
    decrypt M secret (encrypt M secret salt iv (JSValue.str s)) = JSValue.str s := by
  have hv : falsy (JSValue.str s) = false := by simp [falsy, hs]
  have h := decrypt_encrypt_truthy M secret salt iv (JSValue.str s) hA h64 h16 hbs hbi hv
  simpa [jsToString] using h

/-- Witness for C1 at a concrete secret, salt, iv and plaintext. -/
theorem c1_round_trip_witness :
    decrypt toyModel "master"
        (encrypt toyModel "master" (List.replicate 64 0) (List.replicate 16 0)
          (JSValue.str "Ravi Kumar"))
      = JSValue.str "Ravi Kumar" :=
  c1_round_trip toyModel "master" (List.replicate 64 0) (List.replicate 16 0)
    "Ravi Kumar" toyModel_assumptions (by simp) (by simp)
    (by intro b hb; rw [List.eq_of_mem_replicate hb]; norm_num)
    (by intro b hb; rw [List.eq_of_mem_replicate hb]; norm_num)
    (by decide)

/-- C7: for every non-empty string s, when encryption succeeds the
envelope text differs from s and is at least 128 base64 characters
long, even for a 1-character input. -/
theorem c7_envelope_length (M : CryptoModel) (secret : String)
    (salt iv : List Nat) (s : String) (hA : CryptoAssumptions M)
    (h64 : salt.length = 64) (h16 : iv.length = 16)
    (hs : s ≠ "") :
    ∃ env : String,
      encrypt M secret salt iv (JSValue.str s) = JSValue.str env ∧
      env ≠ s ∧ 128 ≤ env.length := by
  have hv : falsy (JSValue.str s) = false := by simp [falsy, hs]
  obtain ⟨k, ct, tag, hk, henc, hrw⟩ := encrypt_spec M secret salt iv _ hA hv
  have hctlen := hA.enc_ct_len _ _ _ _ _ henc
  have htaglen := hA.enc_tag_len _ _ _ _ _ henc
  simp only [jsToString] at hctlen
  have hul := hA.utf8_len s
  have hlen := envelope_length salt iv tag ct h64 h16 htaglen
  have hgt : s.length
      < (String.mk (b64encodeBytes (salt ++ iv ++ tag ++ ct))).length := by
    rw [hlen]; omega
  refine ⟨_, hrw, ?_, ?_⟩
  · intro he
    rw [he] at hgt
    omega
  · rw [hlen]; omega

/-- Witness for C7 at a 1-character input. -/
theorem c7_envelope_length_witness :
    ∃ env : String,
      encrypt toyModel "master" (List.replicate 64 0) (List.replicate 16 0)
          (JSValue.str "x")
        = JSValue.str env ∧ env ≠ "x" ∧ 128 ≤ env.length :=
  c7_envelope_length toyModel "master" (List.replicate 64 0)
    (List.replicate 16 0) "x" toyModel_assumptions (by simp) (by simp)
    (by decide)

/-- C8: null, undefined and the empty string are passed through unchanged
by both encrypt and decrypt. -/
theorem c8_passthrough (M : CryptoModel) (secret : String) (salt iv : List Nat) :
    encrypt M secret salt iv JSValue.null = JSValue.null ∧
    encrypt M secret salt iv (JSValue.str "") = JSValue.str "" ∧
    encrypt M secret salt iv JSValue.undefined = JSValue.undefined ∧
    decrypt M secret JSValue.null = JSValue.null ∧
    decrypt M secret (JSValue.str "") = JSValue.str "" ∧
    decrypt M secret JSValue.undefined = JSValue.undefined := by
  refine ⟨?_, ?_, ?_, ?_, ?_, ?_⟩ <;> simp [encrypt, decrypt, falsy]

/-- C10: every truthy non-string value x is coerced by String(x) before
encryption, so the round trip yields the string String(x), not x with
its original type. -/
theorem c10_coercion (M : CryptoModel) (secret : String) (salt iv : List Nat)
    (x : JSValue) (hA : CryptoAssumptions M)
    (h64 : salt.length = 64) (h16 : iv.length = 16)
    (hbs : ∀ b ∈ salt, b < 256) (hbi : ∀ b ∈ iv, b < 256)
    (hx : falsy x = false) (hnx : ∀ t, x ≠ JSValue.str t) :
    decrypt M secret (encrypt M secret salt iv x) = JSValue.str (jsToString x) ∧
    decrypt M secret (encrypt M secret salt iv x) ≠ x := by
  have h := decrypt_encrypt_truthy M secret salt iv x hA h64 h16 hbs hbi hx
  refine ⟨h, ?_⟩
  rw [h]
  exact fun he => hnx _ he.symm

/-- Witness for C10 at the number 42: the round trip returns the string
"42". -/
theorem c10_coercion_witness :
    decrypt toyModel "master"
        (encrypt toyModel "master" (List.replicate 64 0) (List.replicate 16 0)
          (JSValue.num 42))
      = JSValue.str "42" :=
  (c10_coercion toyModel "master" (List.replicate 64 0) (List.replicate 16 0)
    (JSValue.num 42) toyModel_assumptions (by simp) (by simp)
    (by intro b hb; rw [List.eq_of_mem_replicate hb]; norm_num)
    (by intro b hb; rw [List.eq_of_mem_replicate hb]; norm_num)
    (by decide) (fun t h => JSValue.noConfusion h)).1

/-- C2: the codec never surfaces an exception: encrypt and decrypt are
total; when the try body of encrypt fails the original plaintext comes
back, when the try body of decrypt fails (or the input is not even a
string) the stored value comes back unchanged; and in particular a valid
envelope whose auth tag bytes were altered decrypts to the stored
envelope text itself, by the AEAD tag verification failing. -/
theorem c2_failure_policy (M : CryptoModel) (secret : String)
    (hauth : GcmAuthentic M) :
    (∀ salt iv v, encryptBody M secret salt iv v = none →
      encrypt M secret salt iv v = v) ∧
    (∀ s : String, decryptBody M secret s = none →
      decrypt M secret (JSValue.str s) = JSValue.str s) ∧
    (∀ v, (∀ s, v ≠ JSValue.str s) → decrypt M secret v = v) ∧
    (∀ salt iv k p ct tag t2,
      M.pbkdf2 secret salt = some k →
      M.gcmEncrypt k iv p = some (ct, tag) →
      salt.length = 64 → iv.length = 16 → t2.length = 16 →
      (∀ b ∈ salt, b < 256) → (∀ b ∈ iv, b < 256) →
      (∀ b ∈ t2, b < 256) → (∀ b ∈ ct, b < 256) →
      t2 ≠ tag →
      decrypt M secret
          (JSValue.str (String.mk (b64encodeBytes (salt ++ iv ++ t2 ++ ct))))
        = JSValue.str (String.mk (b64encodeBytes (salt ++ iv ++ t2 ++ ct)))) := by
  refine ⟨?_, ?_, ?_, ?_⟩
  · intro salt iv v h
    simp [encrypt, h]
  · intro s h
    simp [decrypt, h]
  · intro v hv
    cases v <;> first
      | exact absurd rfl (hv _)
      | simp [decrypt]
  · intro salt iv k p ct tag t2 hk henc h64 h16 ht2len hbs hbi hbt2 hbc ht2
    have hbody : decryptBody M secret
        (String.mk (b64encodeBytes (salt ++ iv ++ t2 ++ ct)))
        = (M.gcmDecrypt k iv t2 ct).bind M.utf8Decode :=
      decryptBody_envelope M secret salt iv t2 ct k _ rfl h64 h16 ht2len
        hbs hbi hbt2 hbc hk
    have hfail : M.gcmDecrypt k iv t2 ct = none := hauth k iv p ct tag t2 henc ht2
    have hlen : (String.mk (b64encodeBytes (salt ++ iv ++ t2 ++ ct))).length
        = 4 * ((ct.length + 98) / 3) :=
      envelope_length salt iv t2 ct h64 h16 ht2len
    unfold decrypt
    rw [show falsy (JSValue.str (String.mk (b64encodeBytes (salt ++ iv ++ t2 ++ ct))))
        = false from beq_empty_eq_false_of_length (by omega)]
    simp only [Bool.false_eq_true, if_false]
    rw [if_neg (by simp only [ENCRYPTED_POSITION, TAG_POSITION, SALT_LENGTH,
      IV_LENGTH, TAG_LENGTH]; omega)]
    rw [hbody, hfail]
    rfl

/-- Concrete inputs for the C2 witness: an all-zero salt and iv, a
2-character plaintext, and an auth tag that differs from the genuine
one. -/
def zsalt : List Nat := List.replicate 64 0

def ziv : List Nat := List.replicate 16 0

def tamperCt : List Nat := [0, 0, 104, 0, 0, 105]

def tamperTag : List Nat := List.replicate 16 7

/-- Witness for C2: decrypting the tampered envelope returns the stored
envelope text unchanged. -/
theorem c2_failure_policy_witness :
    decrypt toyModel "master"
        (JSValue.str (String.mk (b64encodeBytes (zsalt ++ ziv ++ tamperTag ++ tamperCt))))
      = JSValue.str (String.mk (b64encodeBytes (zsalt ++ ziv ++ tamperTag ++ tamperCt))) :=
  (c2_failure_policy toyModel "master" toyModel_authentic).2.2.2 zsalt ziv
    [42] tamperCt tamperCt (toyTag [42] ziv tamperCt) tamperTag rfl rfl
    (by decide) (by decide) (by decide) (by decide) (by decide) (by decide)
    (by decide) (by decide)

/-- C3 counterexample: the claim ties the legacy-plaintext guard to the
base64-decoded byte length, but the source compares the character length
of the stored string with 96. A 96-character base64 string decodes to
only 72 bytes (below the claimed 96-byte structural minimum), yet
decrypt does not take the no-decryption legacy path on it: a decryption
is attempted. -/
theorem c3_counterexample :
    ¬ ((b64decodeChars (String.mk (List.replicate 96 'A')).data).length < 96 →
       decrypt toyModel "master" (JSValue.str (String.mk (List.replicate 96 'A')))
           = JSValue.str (String.mk (List.replicate 96 'A')) ∧
       decryptAttempted (JSValue.str (String.mk (List.replicate 96 'A'))) = false) :=
  fun h => absurd (h (by decide)).2 (by decide)

/-- C3 amended: for every stored input that is not a string, or is a
string of fewer than 96 characters (the code compares the character
length of the stored text with ENCRYPTED_POSITION, not its decoded byte
length), decrypt returns the input unchanged with no decryption
attempted; in particular decrypt of "plain unencrypted text" returns the
input unchanged. -/
theorem c3_legacy_guard (M : CryptoModel) (secret : String) (v : JSValue)
    (h : (∀ s, v ≠ JSValue.str s) ∨ ∃ s, v = JSValue.str s ∧ s.length < 96) :
    decrypt M secret v = v ∧ decryptAttempted v = false := by
  rcases h with h | ⟨s, rfl, hlen⟩
  · refine ⟨?_, ?_⟩
    · cases v <;> first
        | exact absurd rfl (h _)
        | simp [decrypt]
    · cases v <;> first
        | exact absurd rfl (h _)
        | rfl
  · have hg : s.length < ENCRYPTED_POSITION := by
      simp only [ENCRYPTED_POSITION, TAG_POSITION, SALT_LENGTH, IV_LENGTH,
        TAG_LENGTH]
      omega
    have hng : ¬ (ENCRYPTED_POSITION ≤ s.length) := by omega
    refine ⟨?_, ?_⟩
    · simp [decrypt, hg]
    · simp [decryptAttempted, decide_eq_false hng]

/-- Witness for C3 (amended) at the legacy plaintext from the spec. -/
theorem c3_legacy_guard_witness :
    decrypt toyModel "master" (JSValue.str "plain unencrypted text")
        = JSValue.str "plain unencrypted text" ∧
    decryptAttempted (JSValue.str "plain unencrypted text") = false :=
  c3_legacy_guard toyModel "master" (JSValue.str "plain unencrypted text")
    (Or.inr ⟨"plain unencrypted text", rfl, by decide⟩)

/-- C5: encrypting the same non-empty string twice with fresh (distinct)
64-byte salts and 16-byte ivs yields two different envelope texts, and
both envelopes decrypt back to the plaintext. -/
theorem c5_nondeterminism (M : CryptoModel) (secret : String)
    (salt1 iv1 salt2 iv2 : List Nat) (s : String) (hA : CryptoAssumptions M)
    (h641 : salt1.length = 64) (h161 : iv1.length = 16)
    (h642 : salt2.length = 64) (h162 : iv2.length = 16)
    (hbs1 : ∀ b ∈ salt1, b < 256) (hbi1 : ∀ b ∈ iv1, b < 256)
    (hbs2 : ∀ b ∈ salt2, b < 256) (hbi2 : ∀ b ∈ iv2, b < 256)
    (hfresh : salt1 ≠ salt2 ∧ iv1 ≠ iv2) (hs : s ≠ "") :
    encrypt M secret salt1 iv1 (JSValue.str s)
        ≠ encrypt M secret salt2 iv2 (JSValue.str s) ∧
    decrypt M secret (encrypt M secret salt1 iv1 (JSValue.str s)) = JSValue.str s ∧
    decrypt M secret (encrypt M secret salt2 iv2 (JSValue.str s)) = JSValue.str s := by
  have hv : falsy (JSValue.str s) = false := by simp [falsy, hs]
  refine ⟨?_, ?_, ?_⟩
  · obtain ⟨k1, ct1, tag1, hk1, henc1, hrw1⟩ :=
      encrypt_spec M secret salt1 iv1 _ hA hv
    obtain ⟨k2, ct2, tag2, hk2, henc2, hrw2⟩ :=
      encrypt_spec M secret salt2 iv2 _ hA hv
    rw [hrw1, hrw2]
    intro he
    have hdata : b64encodeBytes (salt1 ++ iv1 ++ tag1 ++ ct1)
        = b64encodeBytes (salt2 ++ iv2 ++ tag2 ++ ct2) := by
      injection he with he1
      injection he1
    have hb1 : ∀ b ∈ salt1 ++ iv1 ++ tag1 ++ ct1, b < 256 := by
      intro b hb
      simp only [List.mem_append] at hb
      rcases hb with ((h | h) | h) | h
      · exact hbs1 b h
      · exact hbi1 b h
      · exact hA.enc_tag_bytes _ _ _ _ _ henc1 b h
      · exact hA.enc_ct_bytes _ _ _ _ _ henc1 (hA.utf8_bytes _) b h
    have hb2 : ∀ b ∈ salt2 ++ iv2 ++ tag2 ++ ct2, b < 256 := by
      intro b hb
      simp only [List.mem_append] at hb
      rcases hb with ((h | h) | h) | h
      · exact hbs2 b h
      · exact hbi2 b h
      · exact hA.enc_tag_bytes _ _ _ _ _ henc2 b h
      · exact hA.enc_ct_bytes _ _ _ _ _ henc2 (hA.utf8_bytes _) b h
    have hlists : salt1 ++ iv1 ++ tag1 ++ ct1 = salt2 ++ iv2 ++ tag2 ++ ct2 := by
      rw [← b64_roundtrip _ hb1, ← b64_roundtrip _ hb2, hdata]
    have hsalt : salt1 = salt2 := by
      have h1 : (salt1 ++ iv1 ++ tag1 ++ ct1).take 64 = salt1 := by
        have := @List.take_left' _ salt1 (iv1 ++ tag1 ++ ct1) _ h641
        simpa [List.append_assoc] using this
      have h2 : (salt2 ++ iv2 ++ tag2 ++ ct2).take 64 = salt2 := by
        have := @List.take_left' _ salt2 (iv2 ++ tag2 ++ ct2) _ h642
        simpa [List.append_assoc] using this
      rw [← h1, ← h2, hlists]
    exact hfresh.1 hsalt
  · have h := decrypt_encrypt_truthy M secret salt1 iv1 _ hA h641 h161 hbs1 hbi1 hv
    simpa [jsToString] using h
  · have h := decrypt_encrypt_truthy M secret salt2 iv2 _ hA h642 h162 hbs2 hbi2 hv
    simpa [jsToString] using h

/-- Witness for C5: two concrete distinct salt/iv draws. -/
theorem c5_nondeterminism_witness :
    encrypt toyModel "master" (List.replicate 64 0) (List.replicate 16 0)
        (JSValue.str "hi")
      ≠ encrypt toyModel "master" (List.replicate 64 1) (List.replicate 16 1)
        (JSValue.str "hi") ∧
    decrypt toyModel "master"
        (encrypt toyModel "master" (List.replicate 64 0) (List.replicate 16 0)
          (JSValue.str "hi")) = JSValue.str "hi" ∧
    decrypt toyModel "master"
        (encrypt toyModel "master" (List.replicate 64 1) (List.replicate 16 1)
          (JSValue.str "hi")) = JSValue.str "hi" :=
  c5_nondeterminism toyModel "master" (List.replicate 64 0) (List.replicate 16 0)
    (List.replicate 64 1) (List.replicate 16 1) "hi" toyModel_assumptions
    (by simp) (by simp) (by simp) (by simp)
    (by intro b hb; rw [List.eq_of_mem_replicate hb]; norm_num)
    (by intro b hb; rw [List.eq_of_mem_replicate hb]; norm_num)
    (by intro b hb; rw [List.eq_of_mem_replicate hb]; norm_num)
    (by intro b hb; rw [List.eq_of_mem_replicate hb]; norm_num)
    (by constructor <;> decide) (by decide)

/-! ### Lemmas about the object codec -/

theorem getField_setField_self : ∀ (l : List (String × JSValue)) (f : String)
    (v : JSValue), getField (setField l f v) f = v
  | [], f, v => by simp [setField, getField]
  | (k, w) :: rest, f, v => by
      by_cases h : k = f
      · simp [setField, getField, h]
      · simp [setField, getField, h, getField_setField_self rest f v]

theorem getField_setField_other : ∀ (l : List (String × JSValue)) (f : String)
    (v : JSValue) (g : String), g ≠ f → getField (setField l f v) g = getField l g
  | [], f, v, g, hg => by
      have hfg : f ≠ g := fun h => hg h.symm
      simp [setField, getField, hfg]
  | (k, w) :: rest, f, v, g, hg => by
      by_cases h : k = f
      · subst h
        have hkg : k ≠ g := fun h2 => hg h2.symm
        simp [setField, getField, hkg]
      · simp only [setField, if_neg h, getField]
        by_cases h2 : k = g
        · simp [h2]
        · simp [h2, getField_setField_other rest f v g hg]

theorem codeFields_cons (g : JSValue → JSValue) (f : String) (fs : List String)
    (l : List (String × JSValue)) :
    codeFields g (f :: fs) l
      = codeFields g fs
          (if eligibleField (getField l f) then setField l f (g (getField l f))
           else l) := rfl

theorem codeFields_not_mem (g : JSValue → JSValue) :
    ∀ (fields : List String) (l : List (String × JSValue)) (k : String),
    k ∉ fields → getField (codeFields g fields l) k = getField l k
  | [], l, k, _ => rfl
  | f :: fs, l, k, hk => by
      have hkf : k ≠ f := fun h => hk (h ▸ List.mem_cons_self f fs)
      have hkfs : k ∉ fs := fun h => hk (List.mem_cons_of_mem f h)
      rw [codeFields_cons, codeFields_not_mem g fs _ k hkfs]
      by_cases he : eligibleField (getField l f) = true
      · simp [he, getField_setField_other l f _ k hkf]
      · simp [he]

theorem codeFields_getField (g : JSValue → JSValue) :
    ∀ (fields : List String) (l : List (String × JSValue)), fields.Nodup →
    ∀ k, getField (codeFields g fields l) k
      = if k ∈ fields ∧ eligibleField (getField l k) = true
        then g (getField l k) else getField l k
  | [], l, _, k => by simp [codeFields]
  | f :: fs, l, hnd, k => by
      have hf : f ∉ fs := (List.nodup_cons.mp hnd).1
      have hnfs : fs.Nodup := (List.nodup_cons.mp hnd).2
      rw [codeFields_cons]
      by_cases hkf : k = f
      · subst hkf
        rw [codeFields_not_mem g fs _ k hf]
        by_cases he : eligibleField (getField l k) = true
        · simp [he, getField_setField_self]
        · simp [he]
      · have hstep : getField
            (if eligibleField (getField l f) then setField l f (g (getField l f))
             else l) k = getField l k := by
          by_cases he : eligibleField (getField l f) = true
          · simp [he, getField_setField_other l f _ k hkf]
          · simp [he]
        rw [codeFields_getField g fs _ hnfs k, hstep]
        simp [List.mem_cons, hkf]

/-- C4: encryptObject and decryptObject act through codeFields on plain
objects; every field whose name is not in the list keeps its original
value and type; for a duplicate-free field list (as all the field
registry lists are) each named field present with a non-null, non-empty
(eligible) value becomes exactly the field codec applied to its original
value and every other named field is unchanged; an array input (typeof
object in the source) is spread into an index-keyed plain object and
processed through the same loop; non-object input (null, undefined,
booleans, numbers, strings) is returned unchanged. -/
theorem c4_selective_fields (M : CryptoModel) (secret : String)
    (salt iv : List Nat) (l : List (String × JSValue)) (fields : List String) :
    (encryptObject M secret salt iv (JSValue.obj l) fields
       = JSValue.obj (codeFields (encrypt M secret salt iv) fields l) ∧
     decryptObject M secret (JSValue.obj l) fields
       = JSValue.obj (codeFields (decrypt M secret) fields l)) ∧
    (∀ k, k ∉ fields →
       getField (codeFields (encrypt M secret salt iv) fields l) k = getField l k ∧
       getField (codeFields (decrypt M secret) fields l) k = getField l k) ∧
    (fields.Nodup → ∀ k,
       getField (codeFields (encrypt M secret salt iv) fields l) k
         = (if k ∈ fields ∧ eligibleField (getField l k) = true
            then encrypt M secret salt iv (getField l k) else getField l k) ∧
       getField (codeFields (decrypt M secret) fields l) k
         = (if k ∈ fields ∧ eligibleField (getField l k) = true
            then decrypt M secret (getField l k) else getField l k)) ∧
    (∀ l2 : List JSValue,
       encryptObject M secret salt iv (JSValue.arr l2) fields
         = JSValue.obj (codeFields (encrypt M secret salt iv) fields (arraySpread l2)) ∧
       decryptObject M secret (JSValue.arr l2) fields
         = JSValue.obj (codeFields (decrypt M secret) fields (arraySpread l2))) ∧
    (∀ v, (∀ m, v ≠ JSValue.obj m) → (∀ m, v ≠ JSValue.arr m) →
       encryptObject M secret salt iv v fields = v ∧
       decryptObject M secret v fields = v) := by
  refine ⟨⟨rfl, rfl⟩,
    fun k hk => ⟨codeFields_not_mem _ fields l k hk,
      codeFields_not_mem _ fields l k hk⟩,
    fun hnd k => ⟨codeFields_getField _ fields l hnd k,
      codeFields_getField _ fields l hnd k⟩,
    fun l2 => ⟨rfl, rfl⟩, ?_⟩
  intro v hvo hva
  cases v <;> first
    | exact absurd rfl (hvo _)
    | exact absurd rfl (hva _)
    | exact ⟨rfl, rfl⟩

/-- Witness for C4 at the record from the spec: encrypting only field a
of a record with a string a and numeric b leaves b the untouched number
42. -/
theorem c4_selective_fields_witness :
    getField (codeFields (encrypt toyModel "master" zsalt ziv) ["a"]
        [("a", JSValue.str "secret"), ("b", JSValue.num 42)]) "b"
      = JSValue.num 42 := by
  have h := (((c4_selective_fields toyModel "master" zsalt ziv
      [("a", JSValue.str "secret"), ("b", JSValue.num 42)] ["a"]).2.2.1
      (by simp)) "b").1
  simpa using h

theorem codeFields_single (g : JSValue → JSValue) (f : String) (v : JSValue)
    (he : eligibleField v = true) :
    codeFields g [f] [(f, v)] = [(f, g v)] := by
  rw [codeFields_cons]
  simp [getField, he, setField, codeFields]

/-- C9: encryptArray and decryptArray apply the object codec
element-wise (the result is exactly the map of encryptObject or
decryptObject over the elements), non-array input is returned unchanged,
and decryptArray over a mixed array decrypts the envelope entry while
the plain entry passes through unchanged. -/
theorem c9_array_codec (M : CryptoModel) (secret : String) (salt iv : List Nat)
    (hA : CryptoAssumptions M)
    (h64 : salt.length = 64) (h16 : iv.length = 16)
    (hbs : ∀ b ∈ salt, b < 256) (hbi : ∀ b ∈ iv, b < 256) :
    (∀ (l : List JSValue) (fields : List String),
      encryptArray M secret salt iv (JSValue.arr l) fields
        = JSValue.arr (l.map (fun item => encryptObject M secret salt iv item fields)) ∧
      decryptArray M secret (JSValue.arr l) fields
        = JSValue.arr (l.map (fun item => decryptObject M secret item fields))) ∧
    (∀ v fields, (∀ m, v ≠ JSValue.arr m) →
      encryptArray M secret salt iv v fields = v ∧
      decryptArray M secret v fields = v) ∧
    (∀ s : String, s ≠ "" →
      decryptArray M secret
          (JSValue.arr
            [JSValue.obj [("medicine", encrypt M secret salt iv (JSValue.str s))],
             JSValue.obj [("medicine", JSValue.str "Plain")]]) ["medicine"]
        = JSValue.arr
            [JSValue.obj [("medicine", JSValue.str s)],
             JSValue.obj [("medicine", JSValue.str "Plain")]]) := by
  refine ⟨fun l fields => ⟨rfl, rfl⟩, ?_, ?_⟩
  · intro v fields hv
    cases v <;> first
      | exact absurd rfl (hv _)
      | exact ⟨rfl, rfl⟩
  · intro s hs
    have hv : falsy (JSValue.str s) = false := by simp [falsy, hs]
    obtain ⟨k, ct, tag, hk, henc, hrw⟩ := encrypt_spec M secret salt iv _ hA hv
    have htaglen := hA.enc_tag_len _ _ _ _ _ henc
    have hlen := envelope_length salt iv tag ct h64 h16 htaglen
    have henv_ne : (String.mk (b64encodeBytes (salt ++ iv ++ tag ++ ct)) == "")
        = false := beq_empty_eq_false_of_length (by omega)
    have hdec : decrypt M secret
        (encrypt M secret salt iv (JSValue.str s)) = JSValue.str s := by
      have h := decrypt_encrypt_truthy M secret salt iv (JSValue.str s) hA h64
        h16 hbs hbi hv
      simpa [jsToString] using h
    have hplain : decrypt M secret (JSValue.str "Plain") = JSValue.str "Plain" := by
      unfold decrypt
      rw [show falsy (JSValue.str "Plain") = false from by decide]
      simp only [Bool.false_eq_true, if_false]
      rw [if_pos (by decide)]
    have helig : eligibleField (encrypt M secret salt iv (JSValue.str s)) = true := by
      rw [hrw]
      simp only [eligibleField, Bool.not_eq_true']
      exact henv_ne
    have e1 : codeFields (decrypt M secret) ["medicine"]
        [("medicine", encrypt M secret salt iv (JSValue.str s))]
        = [("medicine", JSValue.str s)] := by
      rw [codeFields_single _ _ _ helig, hdec]
    have e2 : codeFields (decrypt M secret) ["medicine"]
        [("medicine", JSValue.str "Plain")]
        = [("medicine", JSValue.str "Plain")] := by
      rw [codeFields_single _ _ _ (by decide), hplain]
    show JSValue.arr
        [JSValue.obj (codeFields (decrypt M secret) ["medicine"]
           [("medicine", encrypt M secret salt iv (JSValue.str s))]),
         JSValue.obj (codeFields (decrypt M secret) ["medicine"]
           [("medicine", JSValue.str "Plain")])] = _
    rw [e1, e2]

/-- Witness for C9 at a concrete model, salt, iv and plaintext. -/
theorem c9_array_codec_witness :
    decryptArray toyModel "master"
        (JSValue.arr
          [JSValue.obj [("medicine", encrypt toyModel "master" zsalt ziv
             (JSValue.str "Sertraline"))],
           JSValue.obj [("medicine", JSValue.str "Plain")]]) ["medicine"]
      = JSValue.arr
          [JSValue.obj [("medicine", JSValue.str "Sertraline")],
           JSValue.obj [("medicine", JSValue.str "Plain")]] :=
  (c9_array_codec toyModel "master" zsalt ziv toyModel_assumptions
    (by simp [zsalt]) (by simp [ziv])
    (by intro b hb; rw [List.eq_of_mem_replicate hb]; norm_num)
    (by intro b hb; rw [List.eq_of_mem_replicate hb]; norm_num)).2.2
    "Sertraline" (by decide)

/-! ### Lemmas about the corruption detector -/

theorem isBase64Char_not_whitespace : ∀ c : Char, isBase64Char c = true →
    c.isWhitespace = false := by
  intro c h
  cases hws : c.isWhitespace
  · rfl
  · exfalso
    have hw2 : c = ' ' ∨ c = '\t' ∨ c = '\r' ∨ c = '\n' := by
      simpa [Char.isWhitespace, or_assoc] using hws
    rcases hw2 with h1 | h1 | h1 | h1 <;> subst h1 <;> exact absurd h (by decide)

theorem contains_eq_false_of_all {l : List Char} {p : Char → Bool}
    (hall : l.all p = true) (c : Char) (hc : p c = false) :
    l.contains c = false := by
  induction l with
  | nil => rfl
  | cons a l ih =>
      simp only [List.all_cons, Bool.and_eq_true] at hall
      have hca : (c == a) = false := by
        cases hbe : c == a
        · rfl
        · exfalso
          have hce : c = a := eq_of_beq hbe
          rw [← hce] at hall
          rw [hall.1] at hc
          cases hc
      show List.elem c (a :: l) = false
      simp only [List.elem, hca]
      exact ih hall.2

/-- The detector reduces to the length bound and the base64 alphabet
check: the separate whitespace check is subsumed because whitespace is
outside the base64 alphabet. -/
theorem isEncrypted_eq (s : String) :
    isEncrypted (JSValue.str s)
      = (decide (128 ≤ s.length) && s.data.all isBase64Char) := by
  by_cases h0 : s = ""
  · subst h0; decide
  · have hf : falsy (JSValue.str s) = false := by simp [falsy, h0]
    simp only [isEncrypted]
    rw [hf]
    simp only [Bool.false_eq_true, if_false, MIN_ENCRYPTED_LENGTH]
    by_cases h1 : s.length < 128
    · rw [if_pos h1, decide_eq_false (by omega)]
      simp
    · rw [if_neg h1]
      by_cases h2 : s.data.all isBase64Char = true
      · have hsp := contains_eq_false_of_all h2 ' ' (by decide)
        have hnl := contains_eq_false_of_all h2 '\n' (by decide)
        have hta := contains_eq_false_of_all h2 '\t' (by decide)
        rw [decide_eq_true (by omega : 128 ≤ s.length), h2, hsp, hnl, hta]
        simp
      · have h2f : s.data.all isBase64Char = false := by
          cases hx : s.data.all isBase64Char
          · rfl
          · exact absurd hx h2
        simp [h2f]

set_option maxRecDepth 8192 in
/-- C6: isEncrypted is true for a string exactly when its length is at
least 128, every character is in the base64 alphabet and no character is
whitespace (the last conjunct is implied by the alphabet); the three
concrete examples from the spec evaluate as claimed. -/
theorem c6_detector :
    (∀ s : String, isEncrypted (JSValue.str s) = true ↔
      (128 ≤ s.length ∧ (∀ c ∈ s.data, isBase64Char c = true) ∧
       ∀ c ∈ s.data, c.isWhitespace = false)) ∧
    isEncrypted (JSValue.str (String.mk (List.replicate 200 'A'))) = true ∧
    isEncrypted (JSValue.str "Major Depressive Disorder") = false ∧
    isEncrypted (JSValue.str (String.mk
      (List.replicate 100 'A' ++ ' ' :: List.replicate 99 'B'))) = false := by
  refine ⟨?_, by decide, by decide, by decide⟩
  intro s
  rw [isEncrypted_eq]
  constructor
  · intro h
    simp only [Bool.and_eq_true, decide_eq_true_eq, List.all_eq_true] at h
    exact ⟨h.1, h.2, fun c hc => isBase64Char_not_whitespace c (h.2 c hc)⟩
  · rintro ⟨h1, h2, h3⟩
    simp only [Bool.and_eq_true, decide_eq_true_eq, List.all_eq_true]
    exact ⟨h1, h2⟩

set_option maxRecDepth 8192 in
/-- Witness for C6: the characterization applied at the concrete
200-character base64 string, discharging its side conditions. -/
theorem c6_detector_witness :
    isEncrypted (JSValue.str (String.mk (List.replicate 200 'A'))) = true :=
  (c6_detector.1 (String.mk (List.replicate 200 'A'))).mpr
    ⟨by decide, by decide, by decide⟩

end EMRS
